import Mathlib

/-!
Verification of the map/reduce TF-IDF emulator.

Shallow embedding of the two Python source files:
  * `src/MapReduce/MapReduce_TFI-DF.py` — namespace `MR` (map/reduce variant
    whose `map_tf`/`reduce_tf_idf` are handed to the external `MRE.Job`
    harness; emissions via `context.write` are modelled as returned lists,
    per the repository's own design description).
  * `src/MapReduce/TP1.py` — namespace `TP1` (pure pipeline variant).

Python data are modelled as: strings = `List Char`, int = `ℕ`, float = `ℝ`
(`math.log` = `Real.log`; its `ValueError` on a non-positive argument is
modelled by an `Except`-valued run function), Python `set` = `Finset`,
Python `dict` = association list in insertion order.
-/

/-- A token, as produced by `re.split` over the lowered review text. -/
abbrev Token : Type := List Char

/-- A review/document identifier. -/
abbrev DocId : Type := String

/-- The separator characters of the split regular expression
`';|,| |\.|-|!|\t|\"|&|\(|\)|\*|<|>|/|:|\''` in both `map_tf` functions. -/
def sepChars : List Char :=
  [';', ',', ' ', '.', '-', '!', '\t', '"', '&', '(', ')', '*', '<', '>', '/', ':', '\'']

/-- Whether a character is one of the split separators. -/
def isSep (c : Char) : Bool := sepChars.contains c

/-- `review.lower()`. -/
def pyLower (s : List Char) : List Char := s.map Char.toLower

/-- `re.split(...)` with an alternation of single separator characters:
splits at every separator occurrence, keeping empty fields (Python's
`re.split` on `""` yields `['']`, and consecutive separators yield `''`). -/
def pySplit : List Char → List Token
  | [] => [[]]
  | c :: cs =>
    if isSep c then [] :: pySplit cs
    else
      match pySplit cs with
      | [] => [[c]]
      | t :: ts => (c :: t) :: ts

/-- First-match lookup in an association list (Python `d[k]` / `k in d`). -/
def alookup {α β : Type} [DecidableEq α] : List (α × β) → α → Option β
  | [], _ => none
  | (k, v) :: rest, a => if k = a then some v else alookup rest a

/-- `TF[word] += 1` on a `defaultdict(int)`: increment in place if the key is
present (dict order preserved), else append the key with count `1`. -/
def tfUpdate : List (Token × ℕ) → Token → List (Token × ℕ)
  | [], w => [(w, 1)]
  | (k, c) :: rest, w =>
    if k = w then (k, c + 1) :: rest else (k, c) :: tfUpdate rest w

/-- The `TF` dictionary after the loop
`for word in words: if word: TF[word] += 1`. -/
def buildTF (words : List Token) : List (Token × ℕ) :=
  words.foldl (fun m w => if w = [] then m else tfUpdate m w) []

namespace MR

/-- `map_tf` of `MapReduce_TFI-DF.py`: split the lowered review, count the
words, and emit `(word, (review_id, count, word_count))` for each distinct
word (the `context.write` calls, collected in dict order). -/
def map_tf (review_id : DocId) (review : List Char) :
    List (Token × (DocId × ℕ × ℕ)) :=
  let words := pySplit (pyLower review)
  let word_count := words.length
  (buildTF words).map (fun p => (p.1, (review_id, p.2, word_count)))

end MR

namespace TP1

/-- `map_tf` of `TP1.py`: identical body to `MR.map_tf` but appending
`((word, id_review), (count, word_count))` to its result list. -/
def map_tf (id_review : DocId) (review : List Char) :
    List ((Token × DocId) × (ℕ × ℕ)) :=
  let words := pySplit (pyLower review)
  let word_count := words.length
  (buildTF words).map (fun p => ((p.1, id_review), (p.2, word_count)))

/-- `map_tf_on_reviews`: the `results.extend(map_tf(...))` loop over all
reviews, i.e. concatenation of the per-review emission lists in order. -/
def map_tf_on_reviews (reviews : List (DocId × List Char)) :
    List ((Token × DocId) × (ℕ × ℕ)) :=
  reviews.flatMap (fun p => map_tf p.1 p.2)

end TP1

/-- The non-empty tokens of a review: the token sequence of the spec
(empty strings from consecutive separators dropped). -/
def tokensOf (review : List Char) : List Token :=
  (pySplit (pyLower review)).filter (fun w => w ≠ [])

/-- Occurrences of `t` in a list of tokens. -/
def countOcc (t : Token) (ws : List Token) : ℕ :=
  (ws.filter (fun w => w = t)).length

/-! ### Dictionary lemmas for the TF table -/

theorem countOcc_cons (t w : Token) (ws : List Token) :
    countOcc t (w :: ws) = if w = t then countOcc t ws + 1 else countOcc t ws := by
  by_cases h : w = t <;> simp [countOcc, List.filter_cons, h]

theorem alookup_tfUpdate_self (m : List (Token × ℕ)) (w : Token) :
    alookup (tfUpdate m w) w = some ((alookup m w).getD 0 + 1) := by
  induction m with
  | nil => simp [tfUpdate, alookup]
  | cons p rest ih =>
    obtain ⟨k, v⟩ := p
    by_cases hk : k = w
    · subst hk
      simp [tfUpdate, alookup]
    · simp [tfUpdate, alookup, hk, ih]

theorem alookup_tfUpdate_ne (m : List (Token × ℕ)) (w t : Token) (h : t ≠ w) :
    alookup (tfUpdate m w) t = alookup m t := by
  have hwt : ¬ w = t := fun hh => h hh.symm
  induction m with
  | nil => simp [tfUpdate, alookup, hwt]
  | cons p rest ih =>
    obtain ⟨k, v⟩ := p
    by_cases hk : k = w
    · subst hk
      simp [tfUpdate, alookup, hwt]
    · simp [tfUpdate, alookup, hk, ih]

theorem tfUpdate_keys (m : List (Token × ℕ)) (w : Token) :
    (tfUpdate m w).map Prod.fst =
      if w ∈ m.map Prod.fst then m.map Prod.fst else m.map Prod.fst ++ [w] := by
  induction m with
  | nil => simp [tfUpdate]
  | cons p rest ih =>
    obtain ⟨k, v⟩ := p
    by_cases hk : k = w
    · subst hk
      simp [tfUpdate]
    · have : ¬ w = k := fun hh => hk hh.symm
      simp only [tfUpdate, hk, if_false, List.map_cons, List.mem_cons, this, false_or, ih]
      split <;> simp

theorem tfUpdate_keys_nodup (m : List (Token × ℕ)) (w : Token)
    (h : (m.map Prod.fst).Nodup) : ((tfUpdate m w).map Prod.fst).Nodup := by
  rw [tfUpdate_keys]
  by_cases hw : w ∈ m.map Prod.fst
  · simpa [hw] using h
  · simp [hw, List.nodup_append, h]

theorem buildTF_go_some (ws : List Token) :
    ∀ (m : List (Token × ℕ)) (t : Token) (c : ℕ), t ≠ [] →
    alookup m t = some c →
    alookup (ws.foldl (fun m w => if w = [] then m else tfUpdate m w) m) t =
      some (c + countOcc t ws) := by
  induction ws with
  | nil => intro m t c _ h; simpa [countOcc] using h
  | cons w rest ih =>
    intro m t c ht h
    rw [List.foldl_cons, countOcc_cons]
    by_cases hw : w = []
    · have hwt : ¬ w = t := fun hh => ht (hh ▸ hw)
      rw [if_neg hwt, if_pos hw]
      exact ih m t c ht h
    · rw [if_neg hw]
      by_cases hwt : w = t
      · subst hwt
        have h1 : alookup (tfUpdate m w) w = some (c + 1) := by
          rw [alookup_tfUpdate_self, h]; rfl
        rw [ih (tfUpdate m w) w (c + 1) ht h1, if_pos rfl]
        congr 1
        omega
      · have h1 : alookup (tfUpdate m w) t = some c := by
          rw [alookup_tfUpdate_ne m w t (fun hh => hwt hh.symm)]; exact h
        rw [if_neg hwt]
        exact ih (tfUpdate m w) t c ht h1

theorem buildTF_go_none (ws : List Token) :
    ∀ (m : List (Token × ℕ)) (t : Token), t ≠ [] →
    alookup m t = none →
    alookup (ws.foldl (fun m w => if w = [] then m else tfUpdate m w) m) t =
      if countOcc t ws = 0 then none else some (countOcc t ws) := by
  induction ws with
  | nil => intro m t _ h; simpa [countOcc] using h
  | cons w rest ih =>
    intro m t ht h
    rw [List.foldl_cons, countOcc_cons]
    by_cases hw : w = []
    · have hwt : ¬ w = t := fun hh => ht (hh ▸ hw)
      rw [if_neg hwt, if_pos hw]
      exact ih m t ht h
    · rw [if_neg hw]
      by_cases hwt : w = t
      · subst hwt
        have h1 : alookup (tfUpdate m w) w = some 1 := by
          rw [alookup_tfUpdate_self, h]; rfl
        rw [buildTF_go_some rest (tfUpdate m w) w 1 ht h1, if_pos rfl,
          if_neg (Nat.succ_ne_zero (countOcc w rest))]
        congr 1
        omega
      · have h1 : alookup (tfUpdate m w) t = none := by
          rw [alookup_tfUpdate_ne m w t (fun hh => hwt hh.symm)]; exact h
        rw [if_neg hwt]
        exact ih (tfUpdate m w) t ht h1

theorem alookup_buildTF (ws : List Token) (t : Token) (ht : t ≠ []) :
    alookup (buildTF ws) t =
      if countOcc t ws = 0 then none else some (countOcc t ws) :=
  buildTF_go_none ws [] t ht rfl

theorem alookup_buildTF_nil_key (ws : List Token) :
    alookup (buildTF ws) [] = none := by
  have go : ∀ (l : List Token) (m : List (Token × ℕ)), alookup m [] = none →
      alookup (l.foldl (fun m w => if w = [] then m else tfUpdate m w) m) [] = none := by
    intro l
    induction l with
    | nil => intro m h; exact h
    | cons w rest ih =>
      intro m h
      rw [List.foldl_cons]
      by_cases hw : w = []
      · simp only [hw, if_true]; exact ih m h
      · simp only [hw, if_false]
        exact ih (tfUpdate m w) (by rw [alookup_tfUpdate_ne m w [] (fun hh => hw hh.symm)]; exact h)
  exact go ws [] rfl

theorem buildTF_keys_nodup (ws : List Token) : ((buildTF ws).map Prod.fst).Nodup := by
  have go : ∀ (l : List Token) (m : List (Token × ℕ)), (m.map Prod.fst).Nodup →
      ((l.foldl (fun m w => if w = [] then m else tfUpdate m w) m).map Prod.fst).Nodup := by
    intro l
    induction l with
    | nil => intro m h; exact h
    | cons w rest ih =>
      intro m h
      rw [List.foldl_cons]
      by_cases hw : w = []
      · simp only [hw, if_true]; exact ih m h
      · simp only [hw, if_false]
        exact ih (tfUpdate m w) (tfUpdate_keys_nodup m w h)
  exact go ws [] (by simp)

theorem mem_of_alookup_eq_some {α β : Type} [DecidableEq α]
    (m : List (α × β)) (t : α) (c : β) (h : alookup m t = some c) : (t, c) ∈ m := by
  induction m with
  | nil => simp [alookup] at h
  | cons p rest ih =>
    obtain ⟨k, v⟩ := p
    by_cases hk : k = t
    · subst hk
      simp only [alookup, if_true] at h
      simp [← Option.some_inj.mp h]
    · simp only [alookup, hk, if_false] at h
      exact List.mem_cons_of_mem _ (ih h)

theorem alookup_eq_some_of_mem_nodup {α β : Type} [DecidableEq α]
    (m : List (α × β)) (t : α) (c : β) (hnd : (m.map Prod.fst).Nodup)
    (h : (t, c) ∈ m) : alookup m t = some c := by
  induction m with
  | nil => simp at h
  | cons p rest ih =>
    obtain ⟨k, v⟩ := p
    simp only [List.map_cons, List.nodup_cons] at hnd
    rcases List.mem_cons.mp h with h1 | h1
    · simp only [Prod.mk.injEq] at h1
      obtain ⟨rfl, rfl⟩ := h1
      simp [alookup]
    · have ht : t ∈ rest.map Prod.fst := List.mem_map.mpr ⟨(t, c), h1, rfl⟩
      have hk : ¬ k = t := fun hh => hnd.1 (hh ▸ ht)
      simp only [alookup, hk, if_false]
      exact ih hnd.2 h1

theorem mem_buildTF (ws : List Token) (t : Token) (c : ℕ) :
    (t, c) ∈ buildTF ws ↔ t ≠ [] ∧ 0 < countOcc t ws ∧ c = countOcc t ws := by
  constructor
  · intro h
    have hl := alookup_eq_some_of_mem_nodup (buildTF ws) t c (buildTF_keys_nodup ws) h
    by_cases ht : t = []
    · subst ht; rw [alookup_buildTF_nil_key] at hl; exact absurd hl (by simp)
    · rw [alookup_buildTF ws t ht] at hl
      by_cases h0 : countOcc t ws = 0
      · simp [h0] at hl
      · simp only [h0, if_false, Option.some_inj] at hl
        exact ⟨ht, Nat.pos_of_ne_zero h0, hl.symm⟩
  · rintro ⟨ht, h0, rfl⟩
    apply mem_of_alookup_eq_some
    rw [alookup_buildTF ws t ht]
    simp [Nat.pos_iff_ne_zero.mp h0]

/-! ### The reducer and the modelled harness -/

/-- `math.log(total_docs / df)` with Python's true division of the two
integer counts, as a real number. -/
noncomputable def idfVal (total_docs df : ℕ) : ℝ :=
  Real.log ((total_docs : ℝ) / (df : ℝ))

namespace MR

/-- `reduce_tf_idf` of `MapReduce_TFI-DF.py`, value level: collect the
grouped values, compute `idf = math.log(total_docs / len(documents))`, and
emit `(review_id, (word, (tf / total_words) * idf))` for each record.
Defined on the inputs where the Python code raises no exception
(see `reduce_tf_idf_run`). -/
noncomputable def reduce_tf_idf (word : Token) (values : List (DocId × ℕ × ℕ))
    (total_docs : ℕ) : List (DocId × Token × ℝ) :=
  let documents := values
  let idf := idfVal total_docs documents.length
  documents.map (fun v => (v.1, (word, ((v.2.1 : ℝ) / (v.2.2 : ℝ)) * idf)))

/-- `reduce_tf_idf` with Python's exception behaviour made explicit:
`total_docs / len(documents)` raises `ZeroDivisionError` when the group is
empty, and `math.log` raises `ValueError: math domain error` exactly when
its argument is not positive, i.e. (for a non-empty group) when
`total_docs = 0`. Otherwise the emissions of `reduce_tf_idf` are produced. -/
noncomputable def reduce_tf_idf_run (word : Token) (values : List (DocId × ℕ × ℕ))
    (total_docs : ℕ) : Except String (List (DocId × Token × ℝ)) :=
  if values.length = 0 then .error "ZeroDivisionError: division by zero"
  else if total_docs = 0 then .error "ValueError: math domain error"
  else .ok (reduce_tf_idf word values total_docs)

end MR

/-- Insertion-order deduplication: the key sequence of a Python dict built
by inserting the elements of `l` left to right. -/
def pyDedup {α : Type} [DecidableEq α] (l : List α) : List α :=
  l.foldl (fun acc x => if x ∈ acc then acc else acc ++ [x]) []

theorem mem_pyDedup_go {α : Type} [DecidableEq α] (l : List α) :
    ∀ (acc : List α) (x : α),
      (x ∈ l.foldl (fun acc x => if x ∈ acc then acc else acc ++ [x]) acc) ↔
        x ∈ acc ∨ x ∈ l := by
  induction l with
  | nil => intro acc x; simp
  | cons y l ih =>
    intro acc x
    rw [List.foldl_cons]
    by_cases hy : y ∈ acc
    · rw [if_pos hy, ih]
      constructor
      · rintro (h | h)
        · exact Or.inl h
        · exact Or.inr (List.mem_cons_of_mem _ h)
      · rintro (h | h)
        · exact Or.inl h
        · rcases List.mem_cons.mp h with rfl | h
          · exact Or.inl hy
          · exact Or.inr h
    · rw [if_neg hy, ih]
      simp only [List.mem_append, List.mem_singleton, List.mem_cons]
      tauto

theorem mem_pyDedup {α : Type} [DecidableEq α] (l : List α) (x : α) :
    x ∈ pyDedup l ↔ x ∈ l := by
  rw [pyDedup, mem_pyDedup_go]
  simp

theorem pyDedup_nodup {α : Type} [DecidableEq α] (l : List α) :
    (pyDedup l).Nodup := by
  have go : ∀ (l acc : List α), acc.Nodup →
      (l.foldl (fun acc x => if x ∈ acc then acc else acc ++ [x]) acc).Nodup := by
    intro l
    induction l with
    | nil => intro acc h; exact h
    | cons y l ih =>
      intro acc h
      rw [List.foldl_cons]
      by_cases hy : y ∈ acc
      · rw [if_pos hy]; exact ih acc h
      · rw [if_neg hy]
        exact ih _ (by simp [List.nodup_append, h, hy])
  exact go l [] List.nodup_nil

namespace MR

/-- Modelled from the spec: the shuffle stage of the external `MRE.Job`
harness (imported as `from MRE import Job`, not under `src/`): the complete
multiset of mapper emissions over the corpus, in corpus order. -/
def allEmissions (reviews : List (DocId × List Char)) :
    List (Token × (DocId × ℕ × ℕ)) :=
  reviews.flatMap (fun p => map_tf p.1 p.2)

/-- Modelled from the spec: the distinct terms observed anywhere in the
corpus, each appearing once (group keys of the shuffle). -/
def termsOf (ems : List (Token × (DocId × ℕ × ℕ))) : List Token :=
  pyDedup (ems.map Prod.fst)

/-- Modelled from the spec: the shuffle's group for one term — the values
of all emissions whose key equals `t`, by exact equality, in emission
order. -/
def groupForTerm (ems : List (Token × (DocId × ℕ × ℕ))) (t : Token) :
    List (DocId × ℕ × ℕ) :=
  (ems.filter (fun e => e.1 = t)).map Prod.snd

/-- Modelled from the spec: the `MRE.Job` run at value level — map every
review, group by term, reduce every group with the caller-supplied
`total_docs`, and aggregate all reducer emissions. -/
noncomputable def mrPipeline (reviews : List (DocId × List Char))
    (total_docs : ℕ) : List (DocId × Token × ℝ) :=
  let ems := allEmissions reviews
  (termsOf ems).flatMap (fun t => reduce_tf_idf t (groupForTerm ems t) total_docs)

/-- Modelled from the spec: the `MRE.Job` run with reducer exceptions made
explicit — a fatal error in any reducer aborts the whole run, producing no
result set. -/
noncomputable def runJob (reviews : List (DocId × List Char))
    (total_docs : ℕ) : Except String (List (DocId × Token × ℝ)) :=
  let ems := allEmissions reviews
  (termsOf ems).foldlM (fun acc t => do
    let out ← reduce_tf_idf_run t (groupForTerm ems t) total_docs
    pure (acc ++ out)) []

/-- Membership in a mapper's emission list, characterised by the tokens of
the review. -/
theorem mem_map_tf (id : DocId) (rev : List Char) (w : Token) (d : DocId)
    (c k : ℕ) :
    (w, (d, c, k)) ∈ map_tf id rev ↔
      d = id ∧ k = (pySplit (pyLower rev)).length ∧
        (w, c) ∈ buildTF (pySplit (pyLower rev)) := by
  simp only [map_tf, List.mem_map, Prod.mk.injEq]
  constructor
  · rintro ⟨p, hp, rfl, rfl, rfl, rfl⟩
    exact ⟨rfl, rfl, hp⟩
  · rintro ⟨rfl, rfl, hp⟩
    exact ⟨(w, c), hp, rfl, rfl, rfl, rfl⟩

end MR

/-- Counting `t` among the non-empty tokens agrees with counting it in the
raw split fields, for non-empty `t`. -/
theorem countOcc_tokensOf (rev : List Char) (t : Token) (ht : t ≠ []) :
    countOcc t (tokensOf rev) = countOcc t (pySplit (pyLower rev)) := by
  simp only [countOcc, tokensOf, List.filter_filter]
  congr 1
  apply List.filter_congr
  intro w _
  by_cases hw : w = t
  · subst hw; simp [ht]
  · simp [hw]

/-! ### Claims C1 and C5: the TF mapper -/

/-- Claim C1 (counterexample): in the document `"a  b"` (two consecutive
separators) the mapper's records carry `docLength = 3`, the length of the
raw split including its empty field, while the token sequence of non-empty
tokens has length `2`. -/
theorem docLength_counts_empty_fields_cex :
    (['a'], ("d", 1, 3)) ∈ MR.map_tf "d" ['a', ' ', ' ', 'b'] ∧
    (tokensOf ['a', ' ', ' ', 'b']).length = 2 ∧ (3 : ℕ) ≠ 2 := by
  decide

/-- Claim C1 (amended): the `docLength` carried by every record the mapper
emits for a document equals the length of the raw separator split of the
lowered text — the non-empty token count plus the number of empty fields
arising from consecutive (or leading/trailing) separators. -/
theorem docLength_eq_raw_split_length (id : DocId) (rev : List Char)
    (w : Token) (d : DocId) (c k : ℕ)
    (h : (w, (d, c, k)) ∈ MR.map_tf id rev) :
    k = (pySplit (pyLower rev)).length ∧
    k = (tokensOf rev).length + countOcc [] (pySplit (pyLower rev)) := by
  obtain ⟨-, hk, -⟩ := (MR.mem_map_tf id rev w d c k).mp h
  refine ⟨hk, ?_⟩
  rw [hk, tokensOf, countOcc,
    List.length_eq_length_filter_add (l := pySplit (pyLower rev)) (fun w => w ≠ [])]
  congr 1
  apply congrArg List.length
  apply List.filter_congr
  intro x _
  by_cases hx : x = ([] : Token) <;> simp [hx]

/-- Witness for the amended Claim C1 at the counterexample document. -/
theorem docLength_eq_raw_split_length_witness :
    (3 : ℕ) = (pySplit (pyLower ['a', ' ', ' ', 'b'])).length ∧
    (3 : ℕ) = (tokensOf ['a', ' ', ' ', 'b']).length +
      countOcc [] (pySplit (pyLower ['a', ' ', ' ', 'b'])) :=
  docLength_eq_raw_split_length "d" ['a', ' ', ' ', 'b'] ['a'] "d" 1 3 (by decide)

/-- Claim C5 (confirmed): the mapper emits a record for term `t` iff `t`
occurs among the document's non-empty tokens, and the raw count of any
emitted record for `t` is the exact number of occurrences of `t` in the
tokenized text. -/
theorem map_tf_record_iff_occurs (id : DocId) (rev : List Char) (t : Token) :
    ((∃ c k, (t, (id, c, k)) ∈ MR.map_tf id rev) ↔
       0 < countOcc t (tokensOf rev)) ∧
    (∀ d c k, (t, (d, c, k)) ∈ MR.map_tf id rev →
       c = countOcc t (tokensOf rev)) := by
  by_cases ht : t = []
  · subst ht
    have h0 : countOcc [] (tokensOf rev) = 0 := by
      have : (tokensOf rev).filter (fun w => w = ([] : Token)) = [] := by
        apply List.filter_eq_nil_iff.mpr
        intro w hw
        have := (List.mem_filter.mp hw).2
        simpa using this
      simp [countOcc, this]
    constructor
    · rw [h0]
      simp only [Nat.lt_irrefl, iff_false]
      rintro ⟨c, k, hm⟩
      obtain ⟨-, -, hb⟩ := (MR.mem_map_tf id rev [] id c k).mp hm
      exact ((mem_buildTF _ [] c).mp hb).1 rfl
    · intro d c k hm
      obtain ⟨-, -, hb⟩ := (MR.mem_map_tf id rev [] d c k).mp hm
      exact absurd rfl ((mem_buildTF _ [] c).mp hb).1
  · rw [countOcc_tokensOf rev t ht]
    constructor
    · constructor
      · rintro ⟨c, k, hm⟩
        obtain ⟨-, -, hb⟩ := (MR.mem_map_tf id rev t id c k).mp hm
        exact ((mem_buildTF _ t c).mp hb).2.1
      · intro hpos
        refine ⟨countOcc t (pySplit (pyLower rev)), (pySplit (pyLower rev)).length,
          (MR.mem_map_tf id rev t id _ _).mpr ⟨rfl, rfl, ?_⟩⟩
        exact (mem_buildTF _ t _).mpr ⟨ht, hpos, rfl⟩
    · intro d c k hm
      obtain ⟨-, -, hb⟩ := (MR.mem_map_tf id rev t d c k).mp hm
      exact ((mem_buildTF _ t c).mp hb).2.2

/-- Witness for Claim C5: in `"a  a"` the term `a` occurs twice, and the
mapper's record for it carries raw count `2`. -/
theorem map_tf_record_iff_occurs_witness :
    (2 : ℕ) = countOcc ['a'] (tokensOf ['a', ' ', ' ', 'a']) :=
  (map_tf_record_iff_occurs "d" ['a', ' ', ' ', 'a'] ['a']).2 "d" 2 3 (by decide)

/-! ### Claim C4: document frequency in the reducer -/

/-- `re.split` never returns an empty field list (splitting `""` gives
`['']`), so `word_count` in the mappers is always positive. -/
theorem pySplit_ne_nil (s : List Char) : pySplit s ≠ [] := by
  cases s with
  | nil => simp [pySplit]
  | cons c cs =>
    rw [pySplit]
    by_cases hc : isSep c
    · simp [hc]
    · simp only [hc, if_false]
      cases pySplit cs <;> simp

/-- In an association list with distinct keys, filtering for one key yields
nothing or a single pair with that key. -/
theorem assoc_filter_key_nodup {β : Type} (m : List (Token × β))
    (hnd : (m.map Prod.fst).Nodup) (t : Token) :
    m.filter (fun p => p.1 = t) = [] ∨
      ∃ b, m.filter (fun p => p.1 = t) = [(t, b)] := by
  induction m with
  | nil => exact Or.inl rfl
  | cons p rest ih =>
    obtain ⟨k, v⟩ := p
    simp only [List.map_cons, List.nodup_cons] at hnd
    by_cases hk : k = t
    · subst hk
      have hrest : rest.filter (fun p => p.1 = k) = [] := by
        apply List.filter_eq_nil_iff.mpr
        intro p hp
        simp only [decide_eq_true_eq]
        intro hpk
        exact hnd.1 (List.mem_map.mpr ⟨p, hp, hpk⟩)
      refine Or.inr ⟨v, ?_⟩
      simp [List.filter_cons, hrest]
    · rw [List.filter_cons, if_neg (by simp [hk])]
      exact ih hnd.2

/-- A single mapper emission list contributes at most one record per term,
and that record's review id is the document's id. -/
theorem map_tf_filter_docIds_sublist (id : DocId) (rev : List Char) (t : Token) :
    (((MR.map_tf id rev).filter (fun e => e.1 = t)).map (fun e => e.2.1)).Sublist
      [id] := by
  have hfil : (MR.map_tf id rev).filter (fun e => e.1 = t) =
      ((buildTF (pySplit (pyLower rev))).filter (fun p => p.1 = t)).map
        (fun p => (p.1, (id, p.2, (pySplit (pyLower rev)).length))) := by
    rw [MR.map_tf]
    exact List.filter_map _ _
  rw [hfil]
  rcases assoc_filter_key_nodup (buildTF (pySplit (pyLower rev)))
      (buildTF_keys_nodup _) t with h | ⟨b, h⟩
  · rw [h]; simp
  · rw [h]; simp

/-- The review ids of the term group for `t` form a sublist of the corpus'
review ids. -/
theorem group_docIds_sublist (reviews : List (DocId × List Char)) (t : Token) :
    (((MR.allEmissions reviews).filter (fun e => e.1 = t)).map
        (fun e => e.2.1)).Sublist (reviews.map Prod.fst) := by
  induction reviews with
  | nil => simp [MR.allEmissions]
  | cons r rest ih =>
    have hsplit : MR.allEmissions (r :: rest) =
        MR.map_tf r.1 r.2 ++ MR.allEmissions rest := by
      simp [MR.allEmissions]
    rw [hsplit, List.filter_append, List.map_append, List.map_cons]
    exact List.Sublist.append (map_tf_filter_docIds_sublist r.1 r.2 t) ih

/-- Claim C4 (confirmed): for a corpus with distinct review ids and any term
`t` observed by the shuffle, the group length used as `len(documents)` in
the reducer's IDF equals the number of distinct review ids in the group, is
positive, and is at most the corpus size. -/
theorem reducer_df_distinct_and_bounded (reviews : List (DocId × List Char))
    (t : Token) (hids : (reviews.map Prod.fst).Nodup)
    (ht : t ∈ MR.termsOf (MR.allEmissions reviews)) :
    (MR.groupForTerm (MR.allEmissions reviews) t).length =
      (((MR.groupForTerm (MR.allEmissions reviews) t).map Prod.fst).toFinset).card ∧
    0 < (MR.groupForTerm (MR.allEmissions reviews) t).length ∧
    (MR.groupForTerm (MR.allEmissions reviews) t).length ≤ reviews.length := by
  have hsub : ((MR.groupForTerm (MR.allEmissions reviews) t).map Prod.fst).Sublist
      (reviews.map Prod.fst) := by
    have := group_docIds_sublist reviews t
    simpa [MR.groupForTerm, List.map_map] using this
  have hnd : ((MR.groupForTerm (MR.allEmissions reviews) t).map Prod.fst).Nodup :=
    hsub.nodup hids
  refine ⟨?_, ?_, ?_⟩
  · rw [List.toFinset_card_of_nodup hnd, List.length_map]
  · obtain ⟨e, he, hkey⟩ := List.mem_map.mp ((mem_pyDedup _ t).mp ht)
    have : e ∈ (MR.allEmissions reviews).filter (fun e => e.1 = t) :=
      List.mem_filter.mpr ⟨he, by simp [hkey]⟩
    have hpos := List.length_pos.mpr (List.ne_nil_of_mem this)
    simpa [MR.groupForTerm] using hpos
  · have := hsub.length_le
    simpa using this

/-- Witness for Claim C4 on a two-document corpus in which `a` occurs in
both documents. -/
theorem reducer_df_distinct_and_bounded_witness :
    (MR.groupForTerm (MR.allEmissions [("d1", ['a']), ("d2", ['a', ' ', 'b'])]) ['a']).length =
      (((MR.groupForTerm (MR.allEmissions [("d1", ['a']), ("d2", ['a', ' ', 'b'])]) ['a']).map
        Prod.fst).toFinset).card ∧
    0 < (MR.groupForTerm (MR.allEmissions [("d1", ['a']), ("d2", ['a', ' ', 'b'])]) ['a']).length ∧
    (MR.groupForTerm (MR.allEmissions [("d1", ['a']), ("d2", ['a', ' ', 'b'])]) ['a']).length ≤
      [("d1", ['a']), ("d2", ['a', ' ', 'b'])].length :=
  reducer_df_distinct_and_bounded [("d1", ['a']), ("d2", ['a', ' ', 'b'])] ['a']
    (by decide) (by decide)

/-! ### Claims C2, C3, C7, C8: the reducer and IDF numerics -/

/-- `idf = log(totalDocs/df)` is `0` when `df = totalDocs` (also at the
degenerate `0/0`, where Mathlib's conventions give `log 0 = 0`; that case
never reaches the value level since the reducer run raises first). -/
theorem idfVal_self (n : ℕ) : idfVal n n = 0 := by
  by_cases hn : n = 0
  · simp [idfVal, hn]
  · rw [idfVal, div_self (by exact_mod_cast hn), Real.log_one]

/-- Claim C7 (confirmed): when the group's record count (the document
frequency the code uses) equals `totalDocs`, the reducer's IDF is exactly
`0` and every emitted entry has score exactly `0`, regardless of the raw
counts. -/
theorem tfidf_zero_when_df_eq_totaldocs (t : Token)
    (values : List (DocId × ℕ × ℕ)) (n : ℕ) (h : values.length = n) :
    MR.reduce_tf_idf t values n = values.map (fun v => (v.1, (t, (0 : ℝ)))) := by
  rw [MR.reduce_tf_idf]
  simp only [h, idfVal_self, mul_zero]

/-- Witness for Claim C7 on a two-record group with `totalDocs = 2`. -/
theorem tfidf_zero_when_df_eq_totaldocs_witness :
    MR.reduce_tf_idf ['a'] [("d1", (1, 2)), ("d2", (3, 4))] 2 =
      [("d1", (['a'], (0 : ℝ))), ("d2", (['a'], (0 : ℝ)))] :=
  tfidf_zero_when_df_eq_totaldocs ['a'] [("d1", (1, 2)), ("d2", (3, 4))] 2 rfl

/-- Claim C8 (confirmed): with the same positive `totalDocs`, the IDF the
code computes is strictly decreasing in the document frequency (the
reducer rejects `totalDocs = 0`, and every group has `df ≥ 1`). -/
theorem idf_strict_antitone_in_df (n df1 df2 : ℕ) (hdf1 : 0 < df1)
    (h12 : df1 < df2) (hn : 0 < n) : idfVal n df2 < idfVal n df1 := by
  have hdf2 : (0 : ℝ) < (df2 : ℕ) := by exact_mod_cast Nat.lt_of_lt_of_le hdf1 h12.le
  have hdf1R : (0 : ℝ) < (df1 : ℕ) := by exact_mod_cast hdf1
  have hnR : (0 : ℝ) < (n : ℕ) := by exact_mod_cast hn
  apply Real.log_lt_log (div_pos hnR hdf2)
  exact div_lt_div_of_pos_left hnR hdf1R (by exact_mod_cast h12)

/-- Witness for Claim C8 at `totalDocs = 2`, `df1 = 1 < df2 = 2`. -/
theorem idf_strict_antitone_in_df_witness : idfVal 2 2 < idfVal 2 1 :=
  idf_strict_antitone_in_df 2 1 2 (by decide) (by decide) (by decide)

/-- Claim C2 (counterexample): with `totalDocs = 1` smaller than the
document frequency `2`, the reducer raises no error: it returns its
emissions, two entries are emitted, and the IDF used is negative. -/
theorem reducer_accepts_small_totaldocs_cex :
    MR.reduce_tf_idf_run ['a'] [("d1", (1, 1)), ("d2", (1, 1))] 1 =
      .ok (MR.reduce_tf_idf ['a'] [("d1", (1, 1)), ("d2", (1, 1))] 1) ∧
    (MR.reduce_tf_idf ['a'] [("d1", (1, 1)), ("d2", (1, 1))] 1).length = 2 ∧
    idfVal 1 2 < 0 := by
  refine ⟨rfl, by simp [MR.reduce_tf_idf], ?_⟩
  have : ((1 : ℕ) : ℝ) / ((2 : ℕ) : ℝ) = 1 / 2 := by norm_num
  rw [idfVal, this]
  exact Real.log_neg (by norm_num) (by norm_num)

/-- Claim C2 (amended): for `0 < totalDocs < len(documents)` the reducer
raises nothing and silently emits one entry per record with a strictly
negative IDF — every record with positive counts receives a strictly
negative score. -/
theorem reducer_negative_idf_on_small_totaldocs (t : Token)
    (values : List (DocId × ℕ × ℕ)) (n : ℕ) (hn : 0 < n)
    (hlt : n < values.length)
    (hrec : ∀ v ∈ values, 0 < v.2.1 ∧ 0 < v.2.2) :
    MR.reduce_tf_idf_run t values n = .ok (MR.reduce_tf_idf t values n) ∧
    idfVal n values.length < 0 ∧
    ∀ e ∈ MR.reduce_tf_idf t values n, e.2.2 < 0 := by
  have hlen : values.length ≠ 0 := by omega
  have hidf : idfVal n values.length < 0 := by
    apply Real.log_neg
    · apply div_pos (by exact_mod_cast hn) (by exact_mod_cast Nat.pos_of_ne_zero hlen)
    · apply Bound.div_lt_one_of_pos_of_lt
        (by exact_mod_cast Nat.pos_of_ne_zero hlen)
      exact_mod_cast hlt
  refine ⟨?_, hidf, ?_⟩
  · rw [MR.reduce_tf_idf_run, if_neg hlen, if_neg (by omega)]
  · intro e he
    rw [MR.reduce_tf_idf] at he
    obtain ⟨v, hv, rfl⟩ := List.mem_map.mp he
    obtain ⟨hc, hw⟩ := hrec v hv
    exact mul_neg_of_pos_of_neg
      (div_pos (by exact_mod_cast hc) (by exact_mod_cast hw)) hidf

/-- Witness for the amended Claim C2 at the counterexample group. -/
theorem reducer_negative_idf_on_small_totaldocs_witness :
    (0 < 1 ∧ 1 < ([("d1", (1, 1)), ("d2", (1, 1))] : List (DocId × ℕ × ℕ)).length) ∧
    (MR.reduce_tf_idf_run ['b'] [("d1", (1, 1)), ("d2", (1, 1))] 1 =
        .ok (MR.reduce_tf_idf ['b'] [("d1", (1, 1)), ("d2", (1, 1))] 1) ∧
      idfVal 1 ([("d1", (1, 1)), ("d2", (1, 1))] : List (DocId × ℕ × ℕ)).length < 0 ∧
      ∀ e ∈ MR.reduce_tf_idf ['b'] [("d1", (1, 1)), ("d2", (1, 1))] 1, e.2.2 < 0) :=
  ⟨⟨by decide, by decide⟩,
    reducer_negative_idf_on_small_totaldocs ['b'] [("d1", (1, 1)), ("d2", (1, 1))] 1
      (by decide) (by decide) (by decide)⟩

/-- Claim C3 (counterexample): with an empty corpus (`totalDocs = 0`
consistently), no term group exists, no reducer ever runs, and the job
completes with an empty result set instead of raising InvalidCorpus. -/
theorem runJob_empty_corpus_no_error_cex :
    MR.runJob [] 0 = .ok [] := rfl

/-- Claim C3 (amended): with `totalDocs = 0` and at least one mapper
emission, the first reducer invocation raises `math.log`'s domain error and
the whole job aborts with it, emitting no entry; with no emissions, no
reduction runs and the job returns the empty result set without error. -/
theorem runJob_zero_totaldocs_nonempty_error (reviews : List (DocId × List Char))
    (h : MR.allEmissions reviews ≠ []) :
    MR.runJob reviews 0 = .error "ValueError: math domain error" := by
  obtain ⟨e, he⟩ := List.exists_mem_of_ne_nil _ h
  cases hterm : MR.termsOf (MR.allEmissions reviews) with
  | nil =>
    have : e.1 ∈ MR.termsOf (MR.allEmissions reviews) :=
      (mem_pyDedup _ e.1).mpr (List.mem_map.mpr ⟨e, he, rfl⟩)
    rw [hterm] at this
    simp at this
  | cons t0 rest =>
    have ht0 : t0 ∈ MR.termsOf (MR.allEmissions reviews) := by
      rw [hterm]; exact List.mem_cons_self t0 rest
    obtain ⟨e0, he0, hkey⟩ := List.mem_map.mp ((mem_pyDedup _ t0).mp ht0)
    have hgrp : (MR.groupForTerm (MR.allEmissions reviews) t0).length ≠ 0 := by
      have : e0 ∈ (MR.allEmissions reviews).filter (fun e => e.1 = t0) :=
        List.mem_filter.mpr ⟨he0, by simp [hkey]⟩
      have hpos := List.length_pos.mpr (List.ne_nil_of_mem this)
      simp only [MR.groupForTerm, List.length_map]
      omega
    have hrun : MR.reduce_tf_idf_run t0
        (MR.groupForTerm (MR.allEmissions reviews) t0) 0 =
        .error "ValueError: math domain error" := by
      rw [MR.reduce_tf_idf_run, if_neg hgrp, if_pos rfl]
    simp only [MR.runJob, hterm, List.foldlM_cons, hrun]
    rfl

/-- Witness for the amended Claim C3 on a one-document corpus. -/
theorem runJob_zero_totaldocs_nonempty_error_witness :
    MR.allEmissions [("d", ['a'])] ≠ [] ∧
    MR.runJob [("d", ['a'])] 0 = .error "ValueError: math domain error" :=
  ⟨by decide, runJob_zero_totaldocs_nonempty_error [("d", ['a'])] (by decide)⟩

/-! ### The pure pipeline of `TP1.py` -/

namespace TP1

/-- `idf_input[word].add(id_review)` on a `defaultdict(set)`: add the id to
the existing key's set in place, or append the key with a fresh singleton
set (dict insertion order). -/
def dictAdd (m : List (Token × Finset DocId)) (w : Token) (d : DocId) :
    List (Token × Finset DocId) :=
  match m with
  | [] => [(w, {d})]
  | (k, s) :: rest =>
    if k = w then (k, insert d s) :: rest else (k, s) :: dictAdd rest w d

/-- `map_idf_from_tf`: the loop
`for (word, id_review), _ in tf_results: idf_input[word].add(id_review)`. -/
def map_idf_from_tf (tf_results : List ((Token × DocId) × (ℕ × ℕ))) :
    List (Token × Finset DocId) :=
  tf_results.foldl (fun m e => dictAdd m e.1.1 e.1.2) []

/-- `calculate_idf`: `idf_values[word] = math.log(total_docs / len(doc_ids))`
for every dict item, in dict order. -/
noncomputable def calculate_idf (idf_input : List (Token × Finset DocId))
    (total_docs : ℕ) : List (Token × ℝ) :=
  idf_input.map (fun p => (p.1, idfVal total_docs p.2.card))

/-- `calculate_tfidf`: for every TF record whose term has an IDF entry,
append `(id_review, term, (tf / word_count) * idf_values[term])`. -/
noncomputable def calculate_tfidf (tf_results : List ((Token × DocId) × (ℕ × ℕ)))
    (idf_values : List (Token × ℝ)) : List (DocId × Token × ℝ) :=
  match tf_results with
  | [] => []
  | ((term, id_review), (tf, word_count)) :: rest =>
    match alookup idf_values term with
    | some idf =>
      (id_review, (term, ((tf : ℝ) / (word_count : ℝ)) * idf)) ::
        calculate_tfidf rest idf_values
    | none => calculate_tfidf rest idf_values

/-- `filter_term_tfidf`: the list comprehension
`[(doc_id, tfidf) for (doc_id, term_result, tfidf) in tfidf_results
  if term_result == term]`. -/
def filter_term_tfidf (tfidf_results : List (DocId × Token × ℝ)) (term : Token) :
    List (DocId × ℝ) :=
  match tfidf_results with
  | [] => []
  | (doc_id, term_result, tfidf) :: rest =>
    if term_result = term then (doc_id, tfidf) :: filter_term_tfidf rest term
    else filter_term_tfidf rest term

/-- The composition `map_tf_on_reviews` → `map_idf_from_tf` →
`calculate_idf` → `calculate_tfidf` (the pure pipeline of `process_reviews`,
with `total_docs` as the caller-supplied document count). -/
noncomputable def purePipeline (reviews : List (DocId × List Char))
    (total_docs : ℕ) : List (DocId × Token × ℝ) :=
  let tf_results := map_tf_on_reviews reviews
  let idf_input := map_idf_from_tf tf_results
  let idf_values := calculate_idf idf_input total_docs
  calculate_tfidf tf_results idf_values

end TP1

/-! ### Claim C6: the term filter -/

/-- Claim C6 (confirmed): the term filter returns exactly the
`(docId, score)` projections of the entries whose term equals the query, in
result-set order and multiplicity; an entry is in the output iff the
corresponding entry is in the result set; and with no match it returns the
empty list (not an error). -/
theorem filter_term_exact_matches (rs : List (DocId × Token × ℝ)) (q : Token) :
    TP1.filter_term_tfidf rs q =
      (rs.filter (fun e => e.2.1 = q)).map (fun e => (e.1, e.2.2)) ∧
    (∀ d s, (d, s) ∈ TP1.filter_term_tfidf rs q ↔ (d, (q, s)) ∈ rs) ∧
    ((∀ e ∈ rs, e.2.1 ≠ q) → TP1.filter_term_tfidf rs q = []) := by
  have heq : TP1.filter_term_tfidf rs q =
      (rs.filter (fun e => e.2.1 = q)).map (fun e => (e.1, e.2.2)) := by
    induction rs with
    | nil => rfl
    | cons e rest ih =>
      obtain ⟨d, t, s⟩ := e
      by_cases ht : t = q
      · simp [TP1.filter_term_tfidf, List.filter_cons, ht, ih]
      · simp [TP1.filter_term_tfidf, List.filter_cons, ht, ih]
  refine ⟨heq, ?_, ?_⟩
  · intro d s
    rw [heq]
    simp only [List.mem_map, List.mem_filter, Prod.mk.injEq, decide_eq_true_eq]
    constructor
    · rintro ⟨e, ⟨he, hq⟩, hd, hs⟩
      obtain ⟨d', t', s'⟩ := e
      simp only at hq hd hs
      subst hq hd hs
      exact he
    · intro h
      exact ⟨(d, (q, s)), ⟨h, rfl⟩, rfl, rfl⟩
  · intro hnone
    rw [heq]
    have : rs.filter (fun e => e.2.1 = q) = [] := by
      apply List.filter_eq_nil_iff.mpr
      intro e he
      simpa using hnone e he
    rw [this]
    rfl

/-- Witness for Claim C6: a non-matching query yields the empty list. -/
theorem filter_term_exact_matches_witness :
    TP1.filter_term_tfidf [("d1", (['a'], (1 : ℝ)))] ['b'] = [] :=
  (filter_term_exact_matches [("d1", (['a'], (1 : ℝ)))] ['b']).2.2
    (by intro e he; rw [List.mem_singleton] at he; subst he; decide)

/-! ### Claim C9: determinism / order independence -/

/-- Insertion-order deduplication of two permuted key lists yields permuted
(term) lists. -/
theorem pyDedup_perm {α : Type} [DecidableEq α] (l1 l2 : List α)
    (h : l1.Perm l2) : (pyDedup l1).Perm (pyDedup l2) :=
  (List.perm_ext_iff_of_nodup (pyDedup_nodup l1) (pyDedup_nodup l2)).mpr
    (fun a => by rw [mem_pyDedup, mem_pyDedup, h.mem_iff])

/-- Claim C9 (confirmed): mapping the documents in any order (any
permutation of the corpus) and then grouping and reducing yields the same
result set up to permutation — the pipeline is a pure function of the
corpus as a multiset, so two runs on the identical corpus agree as sets of
`(docId, term, score)` entries regardless of task interleaving. -/
theorem pipeline_deterministic_perm_invariant
    (reviews1 reviews2 : List (DocId × List Char)) (n : ℕ)
    (h : reviews1.Perm reviews2) :
    (MR.mrPipeline reviews1 n).Perm (MR.mrPipeline reviews2 n) := by
  have hems : (MR.allEmissions reviews1).Perm (MR.allEmissions reviews2) :=
    List.Perm.flatMap_right _ h
  have hkeys := hems.map Prod.fst
  have hterms : (MR.termsOf (MR.allEmissions reviews1)).Perm
      (MR.termsOf (MR.allEmissions reviews2)) :=
    pyDedup_perm _ _ hkeys
  have hgrp : ∀ t, (MR.groupForTerm (MR.allEmissions reviews1) t).Perm
      (MR.groupForTerm (MR.allEmissions reviews2) t) :=
    fun t => (hems.filter _).map _
  have hred : ∀ t ∈ MR.termsOf (MR.allEmissions reviews1),
      (MR.reduce_tf_idf t (MR.groupForTerm (MR.allEmissions reviews1) t) n).Perm
        (MR.reduce_tf_idf t (MR.groupForTerm (MR.allEmissions reviews2) t) n) := by
    intro t _
    simp only [MR.reduce_tf_idf]
    rw [← (hgrp t).length_eq]
    exact (hgrp t).map _
  simp only [MR.mrPipeline]
  exact (List.Perm.flatMap_left _ hred).trans (List.Perm.flatMap_right _ hterms)

/-- Witness for Claim C9 on a two-document corpus and its reversal. -/
theorem pipeline_deterministic_perm_invariant_witness :
    ([("d1", ['a']), ("d2", ['b'])] : List (DocId × List Char)).Perm
      [("d2", ['b']), ("d1", ['a'])] ∧
    (MR.mrPipeline [("d1", ['a']), ("d2", ['b'])] 2).Perm
      (MR.mrPipeline [("d2", ['b']), ("d1", ['a'])] 2) :=
  ⟨by decide, pipeline_deterministic_perm_invariant _ _ 2 (by decide)⟩

/-! ### Claim C10: the pure pipeline refines the map/reduce pipeline -/

theorem alookup_dictAdd_self (m : List (Token × Finset DocId)) (w : Token)
    (d : DocId) :
    alookup (TP1.dictAdd m w d) w = some (insert d ((alookup m w).getD ∅)) := by
  induction m with
  | nil => simp [TP1.dictAdd, alookup]
  | cons p rest ih =>
    obtain ⟨k, s⟩ := p
    by_cases hk : k = w
    · subst hk
      simp [TP1.dictAdd, alookup]
    · simp [TP1.dictAdd, alookup, hk, ih]

theorem alookup_dictAdd_ne (m : List (Token × Finset DocId)) (w t : Token)
    (d : DocId) (h : t ≠ w) :
    alookup (TP1.dictAdd m w d) t = alookup m t := by
  have hwt : ¬ w = t := fun hh => h hh.symm
  induction m with
  | nil => simp [TP1.dictAdd, alookup, hwt]
  | cons p rest ih =>
    obtain ⟨k, s⟩ := p
    by_cases hk : k = w
    · subst hk
      simp [TP1.dictAdd, alookup, hwt]
    · simp [TP1.dictAdd, alookup, hk, ih]

/-- The document-id set accumulated for `t` by the `map_idf_from_tf` fold,
over an accumulator that already has an entry for `t`. -/
theorem idf_go_some (entries : List ((Token × DocId) × (ℕ × ℕ))) :
    ∀ (m : List (Token × Finset DocId)) (t : Token) (s : Finset DocId),
    alookup m t = some s →
    alookup (entries.foldl (fun m e => TP1.dictAdd m e.1.1 e.1.2) m) t =
      some (s ∪ ((entries.filter (fun e => e.1.1 = t)).map
        (fun e => e.1.2)).toFinset) := by
  induction entries with
  | nil => intro m t s h; simpa using h
  | cons e rest ih =>
    intro m t s h
    rw [List.foldl_cons, List.filter_cons]
    by_cases he : e.1.1 = t
    · subst he
      have h1 : alookup (TP1.dictAdd m e.1.1 e.1.2) e.1.1 =
          some (insert e.1.2 s) := by
        rw [alookup_dictAdd_self, h]; rfl
      rw [ih _ _ _ h1, if_pos (by simp)]
      rw [List.map_cons, List.toFinset_cons]
      rw [Finset.union_insert, Finset.insert_union]
    · have h1 : alookup (TP1.dictAdd m e.1.1 e.1.2) t = some s := by
        rw [alookup_dictAdd_ne m e.1.1 t e.1.2 (fun hh => he hh.symm)]; exact h
      rw [if_neg (by simpa using he)]
      exact ih _ _ _ h1

/-- The document-id set accumulated for `t` by the `map_idf_from_tf` fold,
over an accumulator with no entry for `t`. -/
theorem idf_go_none (entries : List ((Token × DocId) × (ℕ × ℕ))) :
    ∀ (m : List (Token × Finset DocId)) (t : Token),
    alookup m t = none →
    alookup (entries.foldl (fun m e => TP1.dictAdd m e.1.1 e.1.2) m) t =
      if t ∈ entries.map (fun e => e.1.1) then
        some (((entries.filter (fun e => e.1.1 = t)).map
          (fun e => e.1.2)).toFinset)
      else none := by
  induction entries with
  | nil => intro m t h; simpa using h
  | cons e rest ih =>
    intro m t h
    rw [List.foldl_cons]
    by_cases he : e.1.1 = t
    · subst he
      have h1 : alookup (TP1.dictAdd m e.1.1 e.1.2) e.1.1 =
          some ({e.1.2} : Finset DocId) := by
        rw [alookup_dictAdd_self, h]; rfl
      have hfil : (e :: rest).filter (fun x => x.1.1 = e.1.1) =
          e :: rest.filter (fun x => x.1.1 = e.1.1) := by
        simp [List.filter_cons]
      rw [idf_go_some rest _ _ _ h1, hfil, if_pos (by simp),
        List.map_cons, List.toFinset_cons, Finset.insert_eq]
    · have h1 : alookup (TP1.dictAdd m e.1.1 e.1.2) t = none := by
        rw [alookup_dictAdd_ne m e.1.1 t e.1.2 (fun hh => he hh.symm)]; exact h
      have hfil : (e :: rest).filter (fun x => x.1.1 = t) =
          rest.filter (fun x => x.1.1 = t) := by
        simp [List.filter_cons, he]
      have hkey : (t ∈ (e :: rest).map (fun x => x.1.1)) ↔
          t ∈ rest.map (fun x => x.1.1) := by
        simp only [List.map_cons, List.mem_cons]
        constructor
        · rintro (heq | hx)
          · exact absurd heq.symm he
          · exact hx
        · exact Or.inr
      rw [ih _ _ h1, hfil]
      by_cases hm : t ∈ rest.map (fun x => x.1.1)
      · rw [if_pos hm, if_pos (hkey.mpr hm)]
      · rw [if_neg hm, if_neg (fun hx => hm (hkey.mp hx))]

/-- Lookup in the `map_idf_from_tf` dictionary: present iff `t` keys some
TF record, with value the set of review ids of `t`'s records. -/
theorem alookup_map_idf_from_tf (tfrs : List ((Token × DocId) × (ℕ × ℕ)))
    (t : Token) :
    alookup (TP1.map_idf_from_tf tfrs) t =
      if t ∈ tfrs.map (fun e => e.1.1) then
        some (((tfrs.filter (fun e => e.1.1 = t)).map (fun e => e.1.2)).toFinset)
      else none :=
  idf_go_none tfrs [] t rfl

/-- Lookup after mapping values of an association list. -/
theorem alookup_map_snd {β γ : Type} (m : List (Token × β)) (g : β → γ)
    (t : Token) :
    alookup (m.map (fun p => (p.1, g p.2))) t = (alookup m t).map g := by
  induction m with
  | nil => simp [alookup]
  | cons p rest ih =>
    obtain ⟨k, v⟩ := p
    by_cases hk : k = t
    · subst hk
      simp [alookup]
    · simp [alookup, hk, ih]

/-- Membership in `calculate_tfidf`: one output triple per TF record whose
term has an IDF entry. -/
theorem mem_calculate_tfidf (tfrs : List ((Token × DocId) × (ℕ × ℕ)))
    (idfv : List (Token × ℝ)) (x : DocId × Token × ℝ) :
    x ∈ TP1.calculate_tfidf tfrs idfv ↔
      ∃ t id c wc idf, ((t, id), (c, wc)) ∈ tfrs ∧ alookup idfv t = some idf ∧
        x = (id, (t, ((c : ℝ) / (wc : ℝ)) * idf)) := by
  induction tfrs with
  | nil => simp [TP1.calculate_tfidf]
  | cons e rest ih =>
    obtain ⟨⟨t0, id0⟩, c0, wc0⟩ := e
    rw [TP1.calculate_tfidf]
    cases hl : alookup idfv t0 with
    | none =>
      rw [ih]
      constructor
      · rintro ⟨t, id, c, wc, idf, hmem, hidf, rfl⟩
        exact ⟨t, id, c, wc, idf, List.mem_cons_of_mem _ hmem, hidf, rfl⟩
      · rintro ⟨t, id, c, wc, idf, hmem, hidf, rfl⟩
        rcases List.mem_cons.mp hmem with h1 | h1
        · exfalso
          simp only [Prod.mk.injEq] at h1
          obtain ⟨⟨rfl, -⟩, -⟩ := h1
          rw [hl] at hidf
          exact absurd hidf (by simp)
        · exact ⟨t, id, c, wc, idf, h1, hidf, rfl⟩
    | some idf0 =>
      rw [List.mem_cons, ih]
      constructor
      · rintro (rfl | ⟨t, id, c, wc, idf, hmem, hidf, rfl⟩)
        · exact ⟨t0, id0, c0, wc0, idf0, List.mem_cons_self _ _, hl, rfl⟩
        · exact ⟨t, id, c, wc, idf, List.mem_cons_of_mem _ hmem, hidf, rfl⟩
      · rintro ⟨t, id, c, wc, idf, hmem, hidf, rfl⟩
        rcases List.mem_cons.mp hmem with h1 | h1
        · left
          simp only [Prod.mk.injEq] at h1
          obtain ⟨⟨rfl, rfl⟩, rfl, rfl⟩ := h1
          rw [hl] at hidf
          rw [Option.some_inj.mp hidf]
        · right
          exact ⟨t, id, c, wc, idf, h1, hidf, rfl⟩

/-- The two mappers emit the same records, reshaped
`(w, (id, c, k)) ↦ ((w, id), (c, k))`. -/
theorem tp1_map_tf_eq (id : DocId) (rev : List Char) :
    TP1.map_tf id rev =
      (MR.map_tf id rev).map (fun e => ((e.1, e.2.1), e.2.2)) := by
  simp only [TP1.map_tf, MR.map_tf, List.map_map]
  rfl

/-- The pure pipeline's TF results are the reshaped mapper emissions. -/
theorem tf_results_eq (reviews : List (DocId × List Char)) :
    TP1.map_tf_on_reviews reviews =
      (MR.allEmissions reviews).map (fun e => ((e.1, e.2.1), e.2.2)) := by
  rw [TP1.map_tf_on_reviews, MR.allEmissions, List.map_flatMap]
  exact congrArg _ (funext fun p => tp1_map_tf_eq p.1 p.2)

theorem mem_tf_results_iff (reviews : List (DocId × List Char)) (t : Token)
    (id : DocId) (c wc : ℕ) :
    ((t, id), (c, wc)) ∈ TP1.map_tf_on_reviews reviews ↔
      (t, (id, c, wc)) ∈ MR.allEmissions reviews := by
  rw [tf_results_eq, List.mem_map]
  constructor
  · rintro ⟨e, he, heq⟩
    obtain ⟨t', id', c', wc'⟩ := e
    simp only [Prod.mk.injEq] at heq
    obtain ⟨⟨rfl, rfl⟩, rfl, rfl⟩ := heq
    exact he
  · intro h
    exact ⟨(t, (id, c, wc)), h, rfl⟩

/-- The review-id list of `t`'s TF records equals the review-id list of
`t`'s shuffle group. -/
theorem tf_results_ids_eq (reviews : List (DocId × List Char)) (t : Token) :
    ((TP1.map_tf_on_reviews reviews).filter (fun e => e.1.1 = t)).map
        (fun e => e.1.2) =
      ((MR.allEmissions reviews).filter (fun e => e.1 = t)).map
        (fun e => e.2.1) := by
  rw [tf_results_eq, List.filter_map, List.map_map]
  rfl

/-- For corpora with distinct review ids, the size of the distinct-id set
of a term's records equals the term group's record count. -/
theorem df_card_eq_group_length (reviews : List (DocId × List Char))
    (t : Token) (hids : (reviews.map Prod.fst).Nodup) :
    (((MR.allEmissions reviews).filter (fun e => e.1 = t)).map
        (fun e => e.2.1)).toFinset.card =
      (MR.groupForTerm (MR.allEmissions reviews) t).length := by
  have hsub := group_docIds_sublist reviews t
  have hnd := hsub.nodup hids
  rw [List.toFinset_card_of_nodup hnd, List.length_map]
  simp [MR.groupForTerm]

theorem mem_groupForTerm (ems : List (Token × (DocId × ℕ × ℕ))) (t : Token)
    (v : DocId × ℕ × ℕ) : v ∈ MR.groupForTerm ems t ↔ (t, v) ∈ ems := by
  simp only [MR.groupForTerm, List.mem_map, List.mem_filter]
  constructor
  · rintro ⟨e, ⟨he, hkey⟩, rfl⟩
    obtain ⟨t', v'⟩ := e
    simp only [decide_eq_true_eq] at hkey
    subst hkey
    exact he
  · intro h
    exact ⟨(t, v), ⟨h, by simp⟩, rfl⟩

theorem mem_termsOf (ems : List (Token × (DocId × ℕ × ℕ))) (t : Token) :
    t ∈ MR.termsOf ems ↔ ∃ v, (t, v) ∈ ems := by
  rw [MR.termsOf, mem_pyDedup, List.mem_map]
  constructor
  · rintro ⟨e, he, rfl⟩
    exact ⟨e.2, he⟩
  · rintro ⟨v, hv⟩
    exact ⟨(t, v), hv, rfl⟩

/-- Membership in the map/reduce pipeline's result set. -/
theorem mem_mrPipeline (reviews : List (DocId × List Char)) (n : ℕ)
    (x : DocId × Token × ℝ) :
    x ∈ MR.mrPipeline reviews n ↔
      ∃ t v, (t, v) ∈ MR.allEmissions reviews ∧
        x = (v.1, (t, ((v.2.1 : ℝ) / (v.2.2 : ℝ)) *
          idfVal n (MR.groupForTerm (MR.allEmissions reviews) t).length)) := by
  simp only [MR.mrPipeline, List.mem_flatMap, MR.reduce_tf_idf, List.mem_map]
  constructor
  · rintro ⟨t, ht, v, hv, rfl⟩
    exact ⟨t, v, (mem_groupForTerm _ t v).mp hv, rfl⟩
  · rintro ⟨t, v, hev, rfl⟩
    refine ⟨t, (mem_termsOf _ t).mpr ⟨v, hev⟩, v,
      (mem_groupForTerm _ t v).mpr hev, rfl⟩

/-- Membership in the pure pipeline's result set, for corpora with distinct
review ids. -/
theorem mem_purePipeline (reviews : List (DocId × List Char)) (n : ℕ)
    (x : DocId × Token × ℝ) (hids : (reviews.map Prod.fst).Nodup) :
    x ∈ TP1.purePipeline reviews n ↔
      ∃ t v, (t, v) ∈ MR.allEmissions reviews ∧
        x = (v.1, (t, ((v.2.1 : ℝ) / (v.2.2 : ℝ)) *
          idfVal n (MR.groupForTerm (MR.allEmissions reviews) t).length)) := by
  simp only [TP1.purePipeline]
  rw [mem_calculate_tfidf]
  constructor
  · rintro ⟨t, id, c, wc, idf, hmem, hidf, rfl⟩
    rw [TP1.calculate_idf,
      alookup_map_snd (TP1.map_idf_from_tf (TP1.map_tf_on_reviews reviews))
        (fun s => idfVal n s.card) t,
      alookup_map_idf_from_tf] at hidf
    have hkey : t ∈ (TP1.map_tf_on_reviews reviews).map (fun e => e.1.1) :=
      List.mem_map.mpr ⟨((t, id), (c, wc)), hmem, rfl⟩
    rw [if_pos hkey] at hidf
    have hidf2 : idf =
        idfVal n (MR.groupForTerm (MR.allEmissions reviews) t).length := by
      have h2 := Option.some_inj.mp hidf
      rw [← h2]
      simp only [tf_results_ids_eq, df_card_eq_group_length reviews t hids]
    refine ⟨t, (id, c, wc), (mem_tf_results_iff reviews t id c wc).mp hmem, ?_⟩
    rw [hidf2]
  · rintro ⟨t, v, hev, rfl⟩
    obtain ⟨id, c, wc⟩ := v
    have hmem := (mem_tf_results_iff reviews t id c wc).mpr hev
    have hkey : t ∈ (TP1.map_tf_on_reviews reviews).map (fun e => e.1.1) :=
      List.mem_map.mpr ⟨((t, id), (c, wc)), hmem, rfl⟩
    refine ⟨t, id, c, wc,
      idfVal n (MR.groupForTerm (MR.allEmissions reviews) t).length, hmem, ?_, rfl⟩
    rw [TP1.calculate_idf,
      alookup_map_snd (TP1.map_idf_from_tf (TP1.map_tf_on_reviews reviews))
        (fun s => idfVal n s.card) t,
      alookup_map_idf_from_tf, if_pos hkey]
    have : (((TP1.map_tf_on_reviews reviews).filter (fun e => e.1.1 = t)).map
        (fun e => e.1.2)).toFinset.card =
        (MR.groupForTerm (MR.allEmissions reviews) t).length := by
      rw [tf_results_ids_eq, df_card_eq_group_length reviews t hids]
    rw [Option.map_some', this]

/-- Claim C10 (confirmed): for every corpus with distinct review ids and
every `totalDocs ≥ 1`, the pure pipeline (`map_tf_on_reviews` →
`map_idf_from_tf` → `calculate_idf` → `calculate_tfidf`) produces exactly
the same set of `(docId, term, score)` triples as mapping every document
with `map_tf`, grouping by term, and reducing each group with
`reduce_tf_idf` at the same `totalDocs`. -/
theorem pure_refines_mapreduce (reviews : List (DocId × List Char)) (n : ℕ)
    (_hn : 0 < n) (hids : (reviews.map Prod.fst).Nodup) :
    {x | x ∈ TP1.purePipeline reviews n} = {x | x ∈ MR.mrPipeline reviews n} := by
  ext x
  simp only [Set.mem_setOf_eq]
  rw [mem_purePipeline reviews n x hids, mem_mrPipeline reviews n x]

/-- Witness for Claim C10 on a concrete two-document corpus. -/
theorem pure_refines_mapreduce_witness :
    ((0 : ℕ) < 2 ∧
      (([("d1", ['a']), ("d2", ['a', ' ', 'b'])] : List (DocId × List Char)).map
        Prod.fst).Nodup) ∧
    {x | x ∈ TP1.purePipeline [("d1", ['a']), ("d2", ['a', ' ', 'b'])] 2} =
      {x | x ∈ MR.mrPipeline [("d1", ['a']), ("d2", ['a', ' ', 'b'])] 2} :=
  ⟨⟨by decide, by decide⟩,
    pure_refines_mapreduce [("d1", ['a']), ("d2", ['a', ' ', 'b'])] 2
      (by decide) (by decide)⟩
